import Mathlib

/-!
Shallow embedding of the keyspace-sampling core of the redis-keyspace-heatmap
repository (src/src/lib/utils.ts, src/src/lib/scan/scanEngine.ts, and the size
estimator in src/lib/redis/sizeEstimate.ts), together with proofs and
refutations of the specification's claims about it.

Conventions of the embedding:
- JavaScript objects used as string-keyed maps (`Record<string, T>`, `Map`)
  become association lists `List (String × T)` kept in insertion order, which
  matches the iteration order of JS `Map` and of plain objects with
  non-numeric keys.
- JS `number` values that are integral in this code base (counts, byte
  estimates, millisecond TTLs) become `Nat`/`Int`; the one genuinely
  fractional quantity (`coverage`) becomes `ℚ`.
- `undefined`/`null` become `Option`.  The JS truthiness test
  `if (key.estBytes)` is embedded as `estBytes.getD 0 ≠ 0`, which is false
  exactly for `undefined` and `0`, as in JS.
- The TS field `prefix` is named `pfx` here (`prefix` is a Lean keyword).
-/

/-- Embeds `Math.round (n / d)` for natural `n` and positive `d`
(JS rounds half away from zero; both arguments here are non-negative). -/
def jsRound (n d : Nat) : Nat := (2 * n + d) / (2 * d)

/-- Embeds `formatTime` from src/src/lib/utils.ts (only ever applied to the
natural-number bucket boundaries of a `ScanConfig`). -/
def formatTime (seconds : Nat) : String :=
  if seconds < 60 then toString seconds ++ "s"
  else if seconds < 3600 then toString (jsRound seconds 60) ++ "m"
  else if seconds < 86400 then toString (jsRound seconds 3600) ++ "h"
  else toString (jsRound seconds 86400) ++ "d"

/-- Adjacent pairs `(buckets[i], buckets[i+1])`, the half-open intervals the
bucket-label loops of `getTTLBucketLabel` / `getIdleBucketLabel` range over. -/
def bucketPairs : List Nat → List (Nat × Nat)
  | a :: b :: t => (a, b) :: bucketPairs (b :: t)
  | _ => []

/-- First half-open bucket interval containing `v` (the `for` loops in
`getTTLBucketLabel` / `getIdleBucketLabel` return on the first match). -/
def findInterval (v : Int) (buckets : List Nat) : Option (Nat × Nat) :=
  (bucketPairs buckets).find? (fun p => decide ((p.1 : Int) ≤ v) && decide (v < (p.2 : Int)))

/-- Embeds `buckets[buckets.length - 1]`; the code is only ever called with a
non-empty bucket list, the empty case is defaulted to 0. -/
def lastBucket (buckets : List Nat) : Nat := buckets.getLastD 0

/-- Embeds `getTTLBucketLabel` from src/src/lib/utils.ts.  `none` models a
`null` TTL (persistent key); `Math.floor(ttlMs / 1000)` is floor division. -/
def getTTLBucketLabel (ttlMs : Option Int) (buckets : List Nat) : String :=
  match ttlMs with
  | none => "persistent"
  | some t =>
    if t = 0 then "0-60s"
    else
      let ttlSec := Int.fdiv t 1000
      match findInterval ttlSec buckets with
      | some p => formatTime p.1 ++ "-" ++ formatTime p.2
      | none => ">" ++ formatTime (lastBucket buckets)

/-- Embeds `getIdleBucketLabel` from src/src/lib/utils.ts. -/
def getIdleBucketLabel (idleSec : Int) (buckets : List Nat) : String :=
  if idleSec = 0 then "0-1m"
  else
    match findInterval idleSec buckets with
    | some p => formatTime p.1 ++ "-" ++ formatTime p.2
    | none => ">" ++ formatTime (lastBucket buckets)

/-- Embeds the `ScanConfig` interface from src/src/lib/utils.ts. -/
structure ScanConfig where
  dbs : List Nat
  sampleLimit : Nat
  scanCount : Nat
  ttlBuckets : List Nat
  idleBuckets : List Nat
  sizeTopN : Nat
deriving DecidableEq, Repr

/-- Embeds the `KeyMeta` interface from src/src/lib/utils.ts.  `type` is kept
as the runtime string; `ttlMs = none` models `null`, the optional fields
model `undefined`. -/
structure KeyMeta where
  key : String
  type : String
  ttlMs : Option Int
  idleSec : Option Int
  estBytes : Option Nat
  db : Option Nat
deriving DecidableEq, Repr

/-- JS truthiness of `key.estBytes`: false for `undefined` and for `0`. -/
def truthyEst (k : KeyMeta) : Bool := k.estBytes.getD 0 ≠ 0

/-- Embeds `key.estBytes || 0`. -/
def estD (k : KeyMeta) : Nat := k.estBytes.getD 0

/-- Per-type statistics, the values of the `byType` record of a `PrefixAgg`. -/
structure TypeStats where
  count : Nat
  estBytes : Nat
deriving DecidableEq, Repr

/-- Embeds the `PrefixAgg` interface from src/src/lib/utils.ts; the TS field
`prefix` is called `pfx`, histograms and `byType` are insertion-ordered
association lists. -/
structure PrefixAgg where
  pfx : String
  count : Nat
  estBytes : Nat
  ttlHist : List (String × Nat)
  idleHist : List (String × Nat)
  byType : List (String × TypeStats)
deriving DecidableEq, Repr

/-- Embeds `hist[label] = (hist[label] || 0) + n` on a JS object: updates the
first entry with that label in place, else appends (property order). -/
def bumpBy (h : List (String × Nat)) (label : String) (n : Nat) : List (String × Nat) :=
  match h with
  | [] => [(label, n)]
  | (l, c) :: t => if l = label then (l, c + n) :: t else (l, c) :: bumpBy t label n

/-- Total weight a histogram assigns to a label (duplicate-tolerant). -/
def histVal (h : List (String × Nat)) (label : String) : Nat :=
  ((h.filter (fun e => e.1 == label)).map (fun e => e.2)).sum

/-- Sum of all histogram counters. -/
def sumHist (h : List (String × Nat)) : Nat := (h.map (fun e => e.2)).sum

/-- Embeds the `byType` update of `updatePrefixAgg`: create the entry if
missing, then `count++` and conditionally `estBytes += key.estBytes`. -/
def bumpTypeFor (bt : List (String × TypeStats)) (k : KeyMeta) : List (String × TypeStats) :=
  match bt with
  | [] => [(k.type, ⟨1, if truthyEst k then estD k else 0⟩)]
  | (u, v) :: rest =>
    if u = k.type then
      (u, ⟨v.count + 1, v.estBytes + (if truthyEst k then estD k else 0)⟩) :: rest
    else (u, v) :: bumpTypeFor rest k

/-- Embeds `createEmptyPrefixAgg` from src/src/lib/utils.ts. -/
def createEmptyPrefixAgg (p : String) : PrefixAgg :=
  { pfx := p, count := 0, estBytes := 0, ttlHist := [], idleHist := [], byType := [] }

/-- Embeds `updatePrefixAgg` from src/src/lib/utils.ts (as a pure update). -/
def updatePrefixAgg (agg : PrefixAgg) (k : KeyMeta) (config : ScanConfig) : PrefixAgg :=
  let agg1 := { agg with
    count := agg.count + 1
    estBytes := if truthyEst k then agg.estBytes + estD k else agg.estBytes }
  let agg2 := { agg1 with
    ttlHist := bumpBy agg1.ttlHist (getTTLBucketLabel k.ttlMs config.ttlBuckets) 1 }
  let agg3 :=
    match k.idleSec with
    | none => agg2
    | some i => { agg2 with idleHist := bumpBy agg2.idleHist (getIdleBucketLabel i config.idleBuckets) 1 }
  { agg3 with byType := bumpTypeFor agg3.byType k }

/-- Left-to-right scan of JS `String.prototype.split` over the character
list, with a fuel argument making the recursion structural (the fuel is
always sufficient: each step consumes at least one character). -/
def splitFuel (sep : List Char) : Nat → List Char → List Char → List (List Char)
  | 0, s, acc => [acc.reverse ++ s]
  | _ + 1, [], acc => [acc.reverse]
  | fuel + 1, c :: rest, acc =>
    if sep.isPrefixOf (c :: rest) then
      acc.reverse :: splitFuel sep fuel ((c :: rest).drop sep.length) []
    else splitFuel sep fuel rest (c :: acc)

/-- Embeds JS `s.split(sep)`: split on each non-overlapping occurrence of the
separator, scanning left to right; an empty separator splits into single
characters. -/
def jsSplit (s sep : String) : List String :=
  match sep.data with
  | [] => s.data.map (fun c => String.mk [c])
  | c :: cs => (splitFuel (c :: cs) (s.data.length + 1) s.data []).map String.mk

/-- Embeds `extractPrefixes` from src/src/lib/utils.ts: the delimiter-joined
ancestor paths of the first `1..min(parts, maxLevels)` segments. -/
def extractPrefixes (key delimiter : String) (maxLevels : Nat) : List String :=
  let parts := jsSplit key delimiter
  (List.range' 1 (min parts.length maxLevels)).map
    (fun i => String.intercalate delimiter (parts.take i))

/-- Embeds one `prefixMap` step of `aggregateKeys`: create-if-missing then
update in place, preserving `Map` insertion order. -/
def applyKeyToMap (m : List PrefixAgg) (p : String) (k : KeyMeta) (config : ScanConfig) :
    List PrefixAgg :=
  match m with
  | [] => [updatePrefixAgg (createEmptyPrefixAgg p) k config]
  | a :: t =>
    if a.pfx = p then updatePrefixAgg a k config :: t
    else a :: applyKeyToMap t p k config

/-- Index the insertion loop of `insertTopN` stops at: first position whose
entry has `(estBytes || 0)` strictly below the candidate's, else the length. -/
def findInsertIdx (l : List KeyMeta) (e : Nat) : Nat :=
  match l with
  | [] => 0
  | a :: t => if estD a < e then 0 else findInsertIdx t e + 1

/-- Embeds `list.splice(i, 0, k)` (insert at position `i`, clamped to the
end). -/
def spliceIn (l : List KeyMeta) (i : Nat) (k : KeyMeta) : List KeyMeta :=
  match l, i with
  | l, 0 => k :: l
  | [], _ + 1 => [k]
  | a :: t, i + 1 => a :: spliceIn t i k

/-- Embeds `insertTopN` from src/src/lib/utils.ts (as a pure function). -/
def insertTopN (l : List KeyMeta) (k : KeyMeta) (maxSize : Nat) : List KeyMeta :=
  let idx := findInsertIdx l (estD k)
  if idx < maxSize then (spliceIn l idx k).take maxSize
  else l

/-- Embeds the `topNMap` step of `aggregateKeys`: ensure an entry for the
key's type exists, then insert the key only when its `estBytes` is truthy. -/
def topNStep (tm : List (String × List KeyMeta)) (k : KeyMeta) (n : Nat) :
    List (String × List KeyMeta) :=
  match tm with
  | [] => [(k.type, if truthyEst k then insertTopN [] k n else [])]
  | (t, l) :: rest =>
    if t = k.type then (t, if truthyEst k then insertTopN l k n else l) :: rest
    else (t, l) :: topNStep rest k n

/-- Insert an aggregate before the first entry whose `estBytes` is ≤ its own:
one step of the stable descending sort `(a, b) => b.estBytes - a.estBytes`. -/
def insAgg (a : PrefixAgg) : List PrefixAgg → List PrefixAgg
  | [] => [a]
  | b :: t => if b.estBytes ≤ a.estBytes then a :: b :: t else b :: insAgg a t

/-- Embeds the stable JS `Array.prototype.sort` with comparator
`(a, b) => b.estBytes - a.estBytes` (descending, ties keep input order). -/
def sortAggs : List PrefixAgg → List PrefixAgg
  | [] => []
  | a :: t => insAgg a (sortAggs t)

/-- Embeds the `AggregationResult` interface of src/src/lib/utils.ts. -/
structure AggregationResult where
  prefixes : List PrefixAgg
  topN : List (String × List KeyMeta)
deriving DecidableEq, Repr

/-- One key's worth of work in the main loop of `aggregateKeys`: fold the key
into every ancestor prefix, then into the per-type top-N map. -/
def aggStep (config : ScanConfig) (delimiter : String)
    (st : List PrefixAgg × List (String × List KeyMeta)) (k : KeyMeta) :
    List PrefixAgg × List (String × List KeyMeta) :=
  ((extractPrefixes k.key delimiter 3).foldl (fun m p => applyKeyToMap m p k config) st.1,
   topNStep st.2 k config.sizeTopN)

/-- Embeds `aggregateKeys` from src/src/lib/utils.ts. -/
def aggregateKeys (keys : List KeyMeta) (config : ScanConfig) (delimiter : String) :
    AggregationResult :=
  let st := keys.foldl (aggStep config delimiter) ([], [])
  { prefixes := sortAggs st.1, topN := st.2 }

/-- Embeds the in-place merge of one incoming `PrefixAgg` into an existing
entry of the same name, inside `mergeAggregations`. -/
def combinePfx (e q : PrefixAgg) : PrefixAgg :=
  { e with
    count := e.count + q.count
    estBytes := e.estBytes + q.estBytes
    ttlHist := q.ttlHist.foldl (fun h lc => bumpBy h lc.1 lc.2) e.ttlHist
    idleHist := q.idleHist.foldl (fun h lc => bumpBy h lc.1 lc.2) e.idleHist
    byType := q.byType.foldl (fun bt ts => addTypeStats bt ts.1 ts.2) e.byType }
where
  /-- Embeds the `byType` merge: create-if-missing then add both counters. -/
  addTypeStats (bt : List (String × TypeStats)) (t : String) (s : TypeStats) :
      List (String × TypeStats) :=
    match bt with
    | [] => [(t, s)]
    | (u, v) :: rest =>
      if u = t then (u, ⟨v.count + s.count, v.estBytes + s.estBytes⟩) :: rest
      else (u, v) :: addTypeStats rest t s

/-- Embeds the `mergedPrefixes` step of `mergeAggregations`: copy when the
name is new (appending in `Map` order), else merge into the existing entry. -/
def mergePfxInto (m : List PrefixAgg) (q : PrefixAgg) : List PrefixAgg :=
  match m with
  | [] => [q]
  | e :: rest =>
    if e.pfx = q.pfx then combinePfx e q :: rest
    else e :: mergePfxInto rest q

/-- Embeds the `mergedTopN` step of `mergeAggregations`: copy a new type's
list verbatim, else insert each key with the hard-coded bound 20. -/
def mergeTopNInto (m : List (String × List KeyMeta)) (t : String) (ks : List KeyMeta) :
    List (String × List KeyMeta) :=
  match m with
  | [] => [(t, ks)]
  | (u, l) :: rest =>
    if u = t then (u, ks.foldl (fun acc k => insertTopN acc k 20) l) :: rest
    else (u, l) :: mergeTopNInto rest t ks

/-- Embeds `mergeAggregations` from src/src/lib/utils.ts. -/
def mergeAggregations (results : List AggregationResult) : AggregationResult :=
  let pm := results.foldl (fun m r => r.prefixes.foldl mergePfxInto m) ([] : List PrefixAgg)
  let tm := results.foldl (fun m r => r.topN.foldl (fun m e => mergeTopNInto m e.1 e.2) m)
    ([] : List (String × List KeyMeta))
  { prefixes := sortAggs pm, topN := tm }

/-!
Scan engine (src/src/lib/scan/scanEngine.ts).  The network is abstracted
away: a shard (DB index in standalone mode, master node in cluster mode) is
represented by the list of `KeyMeta` batches its cursor loop would produce if
driven to wraparound — each batch being the output of `collectKeyMetadata`
for one `SCAN` reply.  The control flow (per-batch accumulation, the
`keys.length >= sampleLimit` breaks, the final `slice`) is embedded exactly.
-/

/-- One shard's `do … while (cursor !== '0')` loop: append batches in cursor
order, breaking as soon as the accumulated length reaches the limit. -/
def shardScan (limit : Nat) (acc : List KeyMeta) : List (List KeyMeta) → List KeyMeta
  | [] => acc
  | b :: bs =>
    let acc' := acc ++ b
    if limit ≤ acc'.length then acc' else shardScan limit acc' bs

/-- The `for (const db of config.dbs)` loop of `scanStandalone`: sequential
shards, with the loop-head `if (keys.length >= config.sampleLimit) break`. -/
def standaloneVisit (limit : Nat) (dbs : List (List (List KeyMeta))) (acc : List KeyMeta) :
    List KeyMeta :=
  match dbs with
  | [] => acc
  | db :: rest =>
    if limit ≤ acc.length then acc
    else standaloneVisit limit rest (shardScan limit acc db)

/-- The fields of the returned `ScanResult` that the claims are about
(`durationMs` is always set by the caller, `memoryUsageCalls` and `errors`
are pass-through accumulators). -/
structure ScanOut where
  keys : List KeyMeta
  sampled : Nat
  approxTotalKeys : Nat
  coverage : ℚ
deriving DecidableEq

/-- Embeds the return value of `scanStandalone`: visited keys are sliced
post-hoc to the limit, `sampled = min(keys.length, sampleLimit)`, and
`coverage` is `sampled / approxTotalKeys` with no upper clamp. -/
def scanStandalone (config : ScanConfig) (approxTotalKeys : Nat)
    (dbs : List (List (List KeyMeta))) : ScanOut :=
  let visited := standaloneVisit config.sampleLimit dbs []
  { keys := visited.take config.sampleLimit
    sampled := min visited.length config.sampleLimit
    approxTotalKeys := approxTotalKeys
    coverage :=
      if 0 < approxTotalKeys then
        (min visited.length config.sampleLimit : ℚ) / (approxTotalKeys : ℚ)
      else 0 }

/-- Embeds the return value of `scanCluster`: each master node runs its own
cursor loop (bounded by the same `sampleLimit`), the per-node key lists are
concatenated in node order and sliced post-hoc to the limit. -/
def scanCluster (config : ScanConfig) (approxTotalKeys : Nat)
    (nodes : List (List (List KeyMeta))) : ScanOut :=
  let visited := (nodes.map (fun batches => shardScan config.sampleLimit [] batches)).flatten
  { keys := visited.take config.sampleLimit
    sampled := min visited.length config.sampleLimit
    approxTotalKeys := approxTotalKeys
    coverage :=
      if 0 < approxTotalKeys then
        (min visited.length config.sampleLimit : ℚ) / (approxTotalKeys : ℚ)
      else 0 }

/-!
Size estimator (src/lib/redis/sizeEstimate.ts, provided as
src/unnamed/part_012).  The Redis replies consumed by `estimateKeySize` and
its helpers are abstracted into an environment record; `Except` models a
command that may throw, `Option` a `null` reply.  Float arithmetic
(`avg = total / n; Math.floor(avg * card)`) is embedded as the exact
rational computation, i.e. natural-number division `total * card / n`.
-/

/-- Replies the store would give to the commands issued while estimating one
key's size. -/
structure SizeEnv where
  memUsage : Except String (Option Nat)
  getReply : Except String (Option String)
  hlenReply : Except String Nat
  hscanEntries : Except String (List String)
  llenReply : Except String Nat
  lrangeReply : Except String (List String)
  scardReply : Except String Nat
  sscanEntries : Except String (List String)
  zcardReply : Except String Nat
  zrevEntries : Except String (List String)
  xinfoLength : Except String Nat
deriving Repr

/-- Embeds `Buffer.byteLength(s, 'utf8')`. -/
def byteLen (s : String) : Nat := s.utf8ByteSize

/-- Sum of byte lengths over an alternating field/value (or member/score)
array consumed two at a time; `none` models the `TypeError` the JS loop
throws on an odd-length array (`Buffer.byteLength(undefined)`). -/
def pairBytes : List String → Option Nat
  | [] => some 0
  | [_] => none
  | a :: b :: t => (pairBytes t).map (fun s => byteLen a + byteLen b + s)

/-- Embeds `estimateStringSize`: `GET`, byte length of a truthy value, any
failure (or `null`/empty reply) yields 0. -/
def estimateStringSize (env : SizeEnv) : Nat :=
  match env.getReply with
  | .error _ => 0
  | .ok none => 0
  | .ok (some v) => if v = "" then 0 else byteLen v

/-- Embeds `estimateHashSize`: average the sampled field/value byte sizes and
extrapolate to `hlen`; any failure yields 0. -/
def estimateHashSize (env : SizeEnv) : Nat :=
  match env.hlenReply with
  | .error _ => 0
  | .ok hlen =>
    if hlen = 0 then 0
    else
      match env.hscanEntries with
      | .error _ => 0
      | .ok entries =>
        let sampleSize := min 10 hlen
        match pairBytes entries with
        | none => 0
        | some total => total * hlen / (sampleSize * 2)

/-- Embeds `estimateListSize`. -/
def estimateListSize (env : SizeEnv) : Nat :=
  match env.llenReply with
  | .error _ => 0
  | .ok llen =>
    if llen = 0 then 0
    else
      match env.lrangeReply with
      | .error _ => 0
      | .ok elements =>
        let sampleSize := min 10 llen
        let total := (elements.map byteLen).sum
        total * llen / sampleSize

/-- Embeds `estimateSetSize`. -/
def estimateSetSize (env : SizeEnv) : Nat :=
  match env.scardReply with
  | .error _ => 0
  | .ok scard =>
    if scard = 0 then 0
    else
      match env.sscanEntries with
      | .error _ => 0
      | .ok elements =>
        let sampleSize := min 20 scard
        let total := (elements.map byteLen).sum
        total * scard / sampleSize

/-- Embeds `estimateZSetSize` (member/score pairs, divisor `sampleSize`). -/
def estimateZSetSize (env : SizeEnv) : Nat :=
  match env.zcardReply with
  | .error _ => 0
  | .ok zcard =>
    if zcard = 0 then 0
    else
      match env.zrevEntries with
      | .error _ => 0
      | .ok elements =>
        let sampleSize := min 10 zcard
        match pairBytes elements with
        | none => 0
        | some total => total * zcard / sampleSize

/-- Embeds `estimateStreamSize`: 100 bytes per reported entry. -/
def estimateStreamSize (env : SizeEnv) : Nat :=
  match env.xinfoLength with
  | .error _ => 0
  | .ok length => if length = 0 then 0 else length * 100

/-- The fixed per-key bookkeeping overhead (`baseOverhead`) of
`estimateKeySizeHeuristic`. -/
def baseOverhead : Nat := 50

/-- Embeds `estimateKeySizeHeuristic`: type-dispatched heuristic plus the
fixed overhead on every branch (`default` returns the overhead alone). -/
def estimateKeySizeHeuristic (env : SizeEnv) (type : String) : Nat :=
  if type = "string" then estimateStringSize env + baseOverhead
  else if type = "hash" then estimateHashSize env + baseOverhead
  else if type = "list" then estimateListSize env + baseOverhead
  else if type = "set" then estimateSetSize env + baseOverhead
  else if type = "zset" then estimateZSetSize env + baseOverhead
  else if type = "stream" then estimateStreamSize env + baseOverhead
  else baseOverhead

/-- Embeds `estimateKeySize`: a truthy positive `MEMORY USAGE` reply is
returned directly; on a non-positive/`null` reply or a thrown command the
heuristic fallback runs.  Note the function always produces a number — no
branch yields "no estimate". -/
def estimateKeySize (env : SizeEnv) (type : String) : Nat :=
  match env.memUsage with
  | .ok (some v) => if 0 < v then v else estimateKeySizeHeuristic env type
  | .ok none => estimateKeySizeHeuristic env type
  | .error _ => estimateKeySizeHeuristic env type

/-! Basic lemmas about histogram and by-type updates. -/

/-- Sum of the per-type counts of a `byType` record. -/
def byTypeCount (bt : List (String × TypeStats)) : Nat :=
  (bt.map (fun e => e.2.count)).sum

theorem sumHist_cons (e : String × Nat) (t : List (String × Nat)) :
    sumHist (e :: t) = e.2 + sumHist t := by
  simp [sumHist]

theorem bumpBy_sumHist (h : List (String × Nat)) (l : String) (n : Nat) :
    sumHist (bumpBy h l n) = sumHist h + n := by
  induction h with
  | nil => simp [bumpBy, sumHist]
  | cons e t ih =>
    obtain ⟨el, ec⟩ := e
    by_cases hl : el = l
    · simp [bumpBy, hl, sumHist_cons]
      omega
    · simp [bumpBy, hl, sumHist_cons, ih]
      omega

theorem histVal_cons (x : String) (y : Nat) (t : List (String × Nat)) (lab : String) :
    histVal ((x, y) :: t) lab = (if x = lab then y else 0) + histVal t lab := by
  by_cases h : x = lab <;> simp [histVal, h]

theorem bumpBy_histVal (h : List (String × Nat)) (l : String) (n : Nat) (lab : String) :
    histVal (bumpBy h l n) lab = histVal h lab + (if l = lab then n else 0) := by
  induction h with
  | nil =>
    by_cases hl : l = lab <;> simp [bumpBy, histVal, hl]
  | cons e t ih =>
    obtain ⟨el, ec⟩ := e
    by_cases hel : el = l
    · subst hel
      by_cases hlab : el = lab
      · subst hlab
        simp [bumpBy, histVal_cons]
        omega
      · simp [bumpBy, histVal_cons, hlab]
    · by_cases hlab : el = lab
      · subst hlab
        simp [bumpBy, histVal_cons, hel, ih, Ne.symm hel]
      · simp [bumpBy, histVal_cons, hel, hlab, ih]

theorem bumpTypeFor_count (bt : List (String × TypeStats)) (k : KeyMeta) :
    byTypeCount (bumpTypeFor bt k) = byTypeCount bt + 1 := by
  induction bt with
  | nil => simp [bumpTypeFor, byTypeCount]
  | cons e t ih =>
    obtain ⟨u, v⟩ := e
    by_cases hu : u = k.type
    · simp [bumpTypeFor, hu, byTypeCount]
      omega
    · simp [bumpTypeFor, hu, byTypeCount] at ih ⊢
      omega

/-! Field-level description of `updatePrefixAgg`. -/

theorem updatePrefixAgg_pfx (a : KeyMeta) (agg : PrefixAgg) (c : ScanConfig) :
    (updatePrefixAgg agg a c).pfx = agg.pfx := by
  cases h : a.idleSec <;> simp [updatePrefixAgg, h]

theorem updatePrefixAgg_count (a : KeyMeta) (agg : PrefixAgg) (c : ScanConfig) :
    (updatePrefixAgg agg a c).count = agg.count + 1 := by
  cases h : a.idleSec <;> simp [updatePrefixAgg, h]

theorem updatePrefixAgg_ttlHist (a : KeyMeta) (agg : PrefixAgg) (c : ScanConfig) :
    (updatePrefixAgg agg a c).ttlHist =
      bumpBy agg.ttlHist (getTTLBucketLabel a.ttlMs c.ttlBuckets) 1 := by
  cases h : a.idleSec <;> simp [updatePrefixAgg, h]

theorem updatePrefixAgg_byType (a : KeyMeta) (agg : PrefixAgg) (c : ScanConfig) :
    (updatePrefixAgg agg a c).byType = bumpTypeFor agg.byType a := by
  cases h : a.idleSec <;> simp [updatePrefixAgg, h]

theorem updatePrefixAgg_idleHist (a : KeyMeta) (agg : PrefixAgg) (c : ScanConfig) :
    (updatePrefixAgg agg a c).idleHist = agg.idleHist ∨
      ∃ i, a.idleSec = some i ∧
        (updatePrefixAgg agg a c).idleHist =
          bumpBy agg.idleHist (getIdleBucketLabel i c.idleBuckets) 1 := by
  cases h : a.idleSec with
  | none => left; simp [updatePrefixAgg, h]
  | some i => right; exact ⟨i, rfl, by simp [updatePrefixAgg, h]⟩

/-! The per-aggregate invariant of claim C2 and its preservation. -/

/-- The spec's `PrefixAgg` invariants: by-type counts and the TTL histogram
total both equal `count`, the idle histogram total is at most `count`. -/
def aggInv (a : PrefixAgg) : Prop :=
  byTypeCount a.byType = a.count ∧ sumHist a.ttlHist = a.count ∧
    sumHist a.idleHist ≤ a.count

theorem aggInv_empty (p : String) : aggInv (createEmptyPrefixAgg p) := by
  refine ⟨?_, ?_, ?_⟩ <;> simp [createEmptyPrefixAgg, byTypeCount, sumHist]

theorem aggInv_update (agg : PrefixAgg) (k : KeyMeta) (c : ScanConfig)
    (h : aggInv agg) : aggInv (updatePrefixAgg agg k c) := by
  obtain ⟨h1, h2, h3⟩ := h
  refine ⟨?_, ?_, ?_⟩
  · rw [updatePrefixAgg_byType, updatePrefixAgg_count, bumpTypeFor_count, h1]
  · rw [updatePrefixAgg_ttlHist, updatePrefixAgg_count, bumpBy_sumHist, h2]
  · rcases updatePrefixAgg_idleHist k agg c with h4 | ⟨i, _, h4⟩ <;>
      rw [h4, updatePrefixAgg_count] <;> first
      | omega
      | (rw [bumpBy_sumHist]; omega)

theorem applyKeyToMap_inv (m : List PrefixAgg) (p : String) (k : KeyMeta)
    (c : ScanConfig) (h : ∀ a ∈ m, aggInv a) :
    ∀ a ∈ applyKeyToMap m p k c, aggInv a := by
  induction m with
  | nil =>
    intro a ha
    simp [applyKeyToMap] at ha
    exact ha ▸ aggInv_update _ k c (aggInv_empty p)
  | cons e t ih =>
    intro a ha
    by_cases he : e.pfx = p
    · simp [applyKeyToMap, he] at ha
      rcases ha with ha | ha
      · exact ha ▸ aggInv_update _ k c (h e (by simp))
      · exact h a (by simp [ha])
    · simp [applyKeyToMap, he] at ha
      rcases ha with ha | ha
      · exact h a (by simp [ha])
      · exact ih (fun a ha => h a (by simp [ha])) a ha

theorem foldPrefixes_inv (ps : List String) (k : KeyMeta) (c : ScanConfig) :
    ∀ m : List PrefixAgg, (∀ a ∈ m, aggInv a) →
      ∀ a ∈ ps.foldl (fun m p => applyKeyToMap m p k c) m, aggInv a := by
  induction ps with
  | nil => intro m hm; simpa using hm
  | cons p ps ih =>
    intro m hm
    exact ih _ (applyKeyToMap_inv m p k c hm)

theorem aggFold_inv (keys : List KeyMeta) (c : ScanConfig) (d : String) :
    ∀ st : List PrefixAgg × List (String × List KeyMeta), (∀ a ∈ st.1, aggInv a) →
      ∀ a ∈ (keys.foldl (aggStep c d) st).1, aggInv a := by
  induction keys with
  | nil => intro st hst; simpa using hst
  | cons k keys ih =>
    intro st hst
    exact ih _ (foldPrefixes_inv (extractPrefixes k.key d 3) k c st.1 hst)

/-! Permutation facts about the stable sort. -/

theorem insAgg_perm (a : PrefixAgg) (l : List PrefixAgg) :
    (insAgg a l).Perm (a :: l) := by
  induction l with
  | nil => simp [insAgg]
  | cons b t ih =>
    by_cases hb : b.estBytes ≤ a.estBytes
    · simp [insAgg, hb]
    · simp only [insAgg, if_neg hb]
      exact (ih.cons b).trans (List.Perm.swap a b t)

theorem sortAggs_perm (l : List PrefixAgg) : (sortAggs l).Perm l := by
  induction l with
  | nil => simp [sortAggs]
  | cons a t ih =>
    exact (insAgg_perm a (sortAggs t)).trans (ih.cons a)

theorem sortAggs_mem (l : List PrefixAgg) (a : PrefixAgg) :
    a ∈ sortAggs l ↔ a ∈ l :=
  (sortAggs_perm l).mem_iff

/-- Claim C2: for every finite list of `KeyMeta` and every `ScanConfig`,
every `PrefixAgg` produced by `aggregateKeys` satisfies
`sum(byType[*].count) = count`, `sum(ttlHist[*]) = count`, and
`sum(idleHist[*]) ≤ count`. -/
theorem claim2_prefix_agg_invariants (keys : List KeyMeta) (config : ScanConfig)
    (delimiter : String) (agg : PrefixAgg)
    (h : agg ∈ (aggregateKeys keys config delimiter).prefixes) :
    byTypeCount agg.byType = agg.count ∧ sumHist agg.ttlHist = agg.count ∧
      sumHist agg.idleHist ≤ agg.count := by
  have h' : agg ∈ (keys.foldl (aggStep config delimiter) ([], [])).1 := by
    rw [aggregateKeys, sortAggs_mem] at h
    exact h
  exact aggFold_inv keys config delimiter ([], []) (by simp) agg h'

/-- Concrete key for the claim C2 witness. -/
def claim2KeyW : KeyMeta := ⟨"a", "string", none, some 3, some 10, none⟩

/-- Concrete config for the claim C2 witness. -/
def claim2CfgW : ScanConfig := ⟨[0], 5, 100, [0, 60], [0, 60], 5⟩

/-- The aggregate `aggregateKeys [claim2KeyW] claim2CfgW ":"` produces for
prefix "a". -/
def claim2AggW : PrefixAgg :=
  ⟨"a", 1, 10, [("persistent", 1)], [("0s-1m", 1)], [("string", ⟨1, 10⟩)]⟩

/-- Witness for claim C2 at a concrete input. -/
theorem claim2_prefix_agg_invariants_witness :
    byTypeCount claim2AggW.byType = claim2AggW.count ∧
      sumHist claim2AggW.ttlHist = claim2AggW.count ∧
      sumHist claim2AggW.idleHist ≤ claim2AggW.count :=
  claim2_prefix_agg_invariants [claim2KeyW] claim2CfgW ":" claim2AggW (by decide)

/-! Claim C6: the spec's worked scenario. -/

/-- Lookup of a prefix aggregate by name. -/
def findAgg (l : List PrefixAgg) (p : String) : Option PrefixAgg :=
  l.find? (fun a => a.pfx == p)

/-- First key of the spec scenario for claim C6. -/
def claim6Key1 : KeyMeta := ⟨"a:1", "string", none, none, some 10, none⟩

/-- Second key of the spec scenario for claim C6. -/
def claim6Key2 : KeyMeta := ⟨"a:2", "string", some 30000, none, some 20, none⟩

/-- The scenario config of claim C6 (`sampleLimit 5`, `ttlBuckets [0,60,300]`,
`idleBuckets [0,60]`; the fields the scenario leaves open are arbitrary). -/
def claim6Cfg : ScanConfig := ⟨[0], 5, 1000, [0, 60, 300], [0, 60], 5⟩

/-- Counterexample to claim C6: in the scenario's aggregate for prefix "a"
the TTL histogram assigns no weight to the label "0-60s" — the key with
`ttlMs = 30000` is filed under the bucket label "0s-1m" produced by
`formatTime`, and "0-60s" is only ever produced for `ttlMs = 0` exactly. -/
theorem claim6_counterexample :
    ¬ ((findAgg (aggregateKeys [claim6Key1, claim6Key2] claim6Cfg ":").prefixes "a").map
        (fun a => histVal a.ttlHist "0-60s") = some 1) := by
  decide

/-- Claim C6 as amended: the scenario yields for prefix "a" `count = 2`,
`estBytes = 30`, and a TTL histogram giving weight 1 to the dedicated
"persistent" label and weight 1 to the `[0s, 1m)` bucket label "0s-1m"
(not "0-60s" as the spec writes it). -/
theorem claim6_amended_scenario :
    (findAgg (aggregateKeys [claim6Key1, claim6Key2] claim6Cfg ":").prefixes "a").map
        (fun a => (a.count, a.estBytes, histVal a.ttlHist "persistent",
          histVal a.ttlHist "0s-1m")) = some (2, 30, 1, 1) := by
  decide

/-! Claim C10: a zero `estBytes` behaves exactly like an absent one. -/

/-- Replaces an `estBytes` of exactly 0 by an absent estimate. -/
def normalizeZeroEst (k : KeyMeta) : KeyMeta :=
  if k.estBytes = some 0 then { k with estBytes := none } else k

theorem normalizeZeroEst_key (k : KeyMeta) : (normalizeZeroEst k).key = k.key := by
  by_cases h : k.estBytes = some 0 <;> simp [normalizeZeroEst, h]

theorem normalizeZeroEst_type (k : KeyMeta) : (normalizeZeroEst k).type = k.type := by
  by_cases h : k.estBytes = some 0 <;> simp [normalizeZeroEst, h]

theorem normalizeZeroEst_ttlMs (k : KeyMeta) : (normalizeZeroEst k).ttlMs = k.ttlMs := by
  by_cases h : k.estBytes = some 0 <;> simp [normalizeZeroEst, h]

theorem normalizeZeroEst_idleSec (k : KeyMeta) :
    (normalizeZeroEst k).idleSec = k.idleSec := by
  by_cases h : k.estBytes = some 0 <;> simp [normalizeZeroEst, h]

theorem normalizeZeroEst_truthy (k : KeyMeta) :
    truthyEst (normalizeZeroEst k) = truthyEst k := by
  by_cases h : k.estBytes = some 0 <;> simp [normalizeZeroEst, truthyEst, h]

theorem normalizeZeroEst_of_truthy (k : KeyMeta) (h : truthyEst k) :
    normalizeZeroEst k = k := by
  have : k.estBytes ≠ some 0 := by
    intro h0
    simp [truthyEst, h0] at h
  simp [normalizeZeroEst, this]

theorem bumpTypeFor_normalize (bt : List (String × TypeStats)) (k : KeyMeta) :
    bumpTypeFor bt (normalizeZeroEst k) = bumpTypeFor bt k := by
  by_cases ht : truthyEst k
  · rw [normalizeZeroEst_of_truthy k ht]
  · induction bt with
    | nil =>
      simp [bumpTypeFor, normalizeZeroEst_type, normalizeZeroEst_truthy, ht]
    | cons e t ih =>
      obtain ⟨u, v⟩ := e
      by_cases hu : u = k.type <;>
        simp [bumpTypeFor, normalizeZeroEst_type, normalizeZeroEst_truthy, ht, hu, ih]

theorem updatePrefixAgg_normalize (agg : PrefixAgg) (k : KeyMeta) (c : ScanConfig) :
    updatePrefixAgg agg (normalizeZeroEst k) c = updatePrefixAgg agg k c := by
  by_cases ht : truthyEst k
  · rw [normalizeZeroEst_of_truthy k ht]
  · cases hi : k.idleSec with
    | none =>
      simp [updatePrefixAgg, normalizeZeroEst_idleSec, normalizeZeroEst_ttlMs,
        normalizeZeroEst_truthy, ht, hi, bumpTypeFor_normalize]
    | some i =>
      simp [updatePrefixAgg, normalizeZeroEst_idleSec, normalizeZeroEst_ttlMs,
        normalizeZeroEst_truthy, ht, hi, bumpTypeFor_normalize]

theorem applyKeyToMap_normalize (m : List PrefixAgg) (p : String) (k : KeyMeta)
    (c : ScanConfig) :
    applyKeyToMap m p (normalizeZeroEst k) c = applyKeyToMap m p k c := by
  induction m with
  | nil => simp [applyKeyToMap, updatePrefixAgg_normalize]
  | cons e t ih =>
    by_cases he : e.pfx = p <;> simp [applyKeyToMap, he, updatePrefixAgg_normalize, ih]

theorem insertTopN_of_truthy_normalize (l : List KeyMeta) (k : KeyMeta) (n : Nat)
    (ht : truthyEst k) :
    insertTopN l (normalizeZeroEst k) n = insertTopN l k n := by
  rw [normalizeZeroEst_of_truthy k ht]

theorem topNStep_normalize (tm : List (String × List KeyMeta)) (k : KeyMeta) (n : Nat) :
    topNStep tm (normalizeZeroEst k) n = topNStep tm k n := by
  by_cases ht : truthyEst k
  · rw [normalizeZeroEst_of_truthy k ht]
  · induction tm with
    | nil =>
      simp [topNStep, normalizeZeroEst_type, normalizeZeroEst_truthy, ht]
    | cons e rest ih =>
      obtain ⟨t, l⟩ := e
      by_cases hu : t = k.type <;>
        simp [topNStep, normalizeZeroEst_type, normalizeZeroEst_truthy, ht, hu, ih]

theorem aggStep_normalize (c : ScanConfig) (d : String)
    (st : List PrefixAgg × List (String × List KeyMeta)) (k : KeyMeta) :
    aggStep c d st (normalizeZeroEst k) = aggStep c d st k := by
  have hfold : ∀ ps : List String, ∀ m : List PrefixAgg,
      ps.foldl (fun m p => applyKeyToMap m p (normalizeZeroEst k) c) m =
        ps.foldl (fun m p => applyKeyToMap m p k c) m := by
    intro ps
    induction ps with
    | nil => intro m; rfl
    | cons p ps ih => intro m; simp [applyKeyToMap_normalize, ih]
  simp [aggStep, normalizeZeroEst_key, topNStep_normalize, hfold]

/-- Claim C10: a `KeyMeta` whose `estBytes` is exactly 0 is treated by
`aggregateKeys` / `updatePrefixAgg` exactly like one with an absent estimate
(the JS presence check `if (key.estBytes)` is a truthiness test): replacing
every `estBytes = some 0` by `none` changes nothing about the aggregation
result; such a key leaves the prefix-level `estBytes` sum untouched, and the
top-N step leaves every existing list unchanged (at most creating a new
empty entry for the key's type), so the key is never inserted. -/
theorem claim10_zero_est_is_absent (keys : List KeyMeta) (config : ScanConfig)
    (delimiter : String) (agg : PrefixAgg) (k : KeyMeta)
    (h0 : k.estBytes = some 0) :
    aggregateKeys (keys.map normalizeZeroEst) config delimiter =
        aggregateKeys keys config delimiter ∧
      (updatePrefixAgg agg k config).estBytes = agg.estBytes ∧
      ∀ tm : List (String × List KeyMeta),
        (topNStep tm k config.sizeTopN).map (fun e => e.2) = tm.map (fun e => e.2) ∨
          (topNStep tm k config.sizeTopN).map (fun e => e.2) =
            tm.map (fun e => e.2) ++ [[]] := by
  have ht : ¬ truthyEst k := by simp [truthyEst, h0]
  refine ⟨?_, ?_, ?_⟩
  · have hfold : ∀ st : List PrefixAgg × List (String × List KeyMeta),
        (keys.map normalizeZeroEst).foldl (aggStep config delimiter) st =
          keys.foldl (aggStep config delimiter) st := by
      induction keys with
      | nil => intro st; rfl
      | cons k' keys ih =>
        intro st
        simp only [List.map_cons, List.foldl_cons, aggStep_normalize]
        exact ih _
    rw [aggregateKeys, aggregateKeys, hfold]
  · cases hi : k.idleSec <;> simp [updatePrefixAgg, hi, ht]
  · intro tm
    induction tm with
    | nil =>
      right
      simp [topNStep, ht]
    | cons e rest ih =>
      obtain ⟨t, l⟩ := e
      by_cases he : t = k.type
      · left
        simp [topNStep, he, ht]
      · rcases ih with ih | ih
        · left
          simp [topNStep, he, ih]
        · right
          simp [topNStep, he, ih]

/-- Concrete zero-estimate key for the claim C10 witness. -/
def claim10KeyW : KeyMeta := ⟨"z", "string", none, none, some 0, none⟩

/-- Witness for claim C10 at a concrete input. -/
theorem claim10_zero_est_is_absent_witness :
    (aggregateKeys ([claim10KeyW].map normalizeZeroEst) claim6Cfg ":" =
        aggregateKeys [claim10KeyW] claim6Cfg ":") ∧
      (updatePrefixAgg (createEmptyPrefixAgg "x") claim10KeyW claim6Cfg).estBytes =
        (createEmptyPrefixAgg "x").estBytes ∧
      ((topNStep [] claim10KeyW claim6Cfg.sizeTopN).map (fun e => e.2) =
          ([] : List (String × List KeyMeta)).map (fun e => e.2) ∨
        (topNStep [] claim10KeyW claim6Cfg.sizeTopN).map (fun e => e.2) =
          ([] : List (String × List KeyMeta)).map (fun e => e.2) ++ [[]]) :=
  ⟨(claim10_zero_est_is_absent [claim10KeyW] claim6Cfg ":" (createEmptyPrefixAgg "x")
      claim10KeyW rfl).1,
    (claim10_zero_est_is_absent [claim10KeyW] claim6Cfg ":" (createEmptyPrefixAgg "x")
      claim10KeyW rfl).2.1,
    (claim10_zero_est_is_absent [claim10KeyW] claim6Cfg ":" (createEmptyPrefixAgg "x")
      claim10KeyW rfl).2.2 []⟩

/-! Claim C3: nodup/sortedness machinery for the single-merge identity. -/

/-- The prefix names of a prefix map, in map order. -/
def namesOf (m : List PrefixAgg) : List String := m.map (fun a => a.pfx)

/-- The type names of a top-N map, in map order. -/
def typesOf (tm : List (String × List KeyMeta)) : List String := tm.map (fun e => e.1)

/-- The descending-by-`estBytes` relation of the final sort. -/
def descEst (a b : PrefixAgg) : Prop := b.estBytes ≤ a.estBytes

theorem insAgg_mem (a : PrefixAgg) (l : List PrefixAgg) (x : PrefixAgg) :
    x ∈ insAgg a l ↔ x = a ∨ x ∈ l := by
  rw [(insAgg_perm a l).mem_iff, List.mem_cons]

theorem insAgg_pairwise (a : PrefixAgg) (l : List PrefixAgg)
    (h : l.Pairwise descEst) : (insAgg a l).Pairwise descEst := by
  induction l with
  | nil => simp [insAgg, descEst]
  | cons b t ih =>
    rw [List.pairwise_cons] at h
    obtain ⟨hb, ht⟩ := h
    by_cases hba : b.estBytes ≤ a.estBytes
    · rw [insAgg, if_pos hba, List.pairwise_cons]
      refine ⟨?_, List.pairwise_cons.2 ⟨hb, ht⟩⟩
      intro y hy
      rcases List.mem_cons.1 hy with hy | hy
      · exact hy ▸ hba
      · exact le_trans (hb y hy) hba
    · rw [insAgg, if_neg hba, List.pairwise_cons]
      refine ⟨?_, ih ht⟩
      intro y hy
      rcases (insAgg_mem a t y).1 hy with hy | hy
      · exact hy ▸ le_of_lt (lt_of_not_le hba)
      · exact hb y hy

theorem sortAggs_pairwise (l : List PrefixAgg) : (sortAggs l).Pairwise descEst := by
  induction l with
  | nil => simp [sortAggs]
  | cons a t ih => exact insAgg_pairwise a (sortAggs t) ih

theorem sortAggs_eq_self (l : List PrefixAgg) (h : l.Pairwise descEst) :
    sortAggs l = l := by
  induction l with
  | nil => rfl
  | cons a t ih =>
    rw [List.pairwise_cons] at h
    obtain ⟨ha, ht⟩ := h
    rw [sortAggs, ih ht]
    cases t with
    | nil => rfl
    | cons b t' =>
      rw [insAgg, if_pos (show b.estBytes ≤ a.estBytes from ha b (by simp))]

theorem mergePfxInto_of_not_mem (m : List PrefixAgg) (q : PrefixAgg)
    (h : q.pfx ∉ namesOf m) : mergePfxInto m q = m ++ [q] := by
  induction m with
  | nil => rfl
  | cons e t ih =>
    simp [namesOf] at h
    rw [mergePfxInto, if_neg (fun he => h.1 he.symm), ih ?_]
    · rfl
    · simp only [namesOf, List.mem_map, not_exists, not_and]
      intro x hx
      exact fun hp => h.2 x hx hp

theorem foldl_mergePfxInto_append (l : List PrefixAgg) :
    ∀ m : List PrefixAgg, (namesOf l).Nodup →
      (∀ p ∈ namesOf l, p ∉ namesOf m) → l.foldl mergePfxInto m = m ++ l := by
  induction l with
  | nil => intro m _ _; simp
  | cons q t ih =>
    intro m hnd hdis
    simp only [namesOf, List.map_cons, List.nodup_cons] at hnd
    rw [List.foldl_cons, mergePfxInto_of_not_mem m q (hdis q.pfx (by simp [namesOf]))]
    rw [ih (m ++ [q]) hnd.2 ?_]
    · simp
    · intro p hp
      simp only [namesOf, List.map_append] at *
      intro hmem
      rcases List.mem_append.1 hmem with hmem | hmem
      · exact hdis p (by simp [hp]) hmem
      · simp at hmem
        rw [hmem] at hp
        exact hnd.1 hp

theorem mergeTopNInto_of_not_mem (m : List (String × List KeyMeta)) (t : String)
    (ks : List KeyMeta) (h : t ∉ typesOf m) : mergeTopNInto m t ks = m ++ [(t, ks)] := by
  induction m with
  | nil => rfl
  | cons e rest ih =>
    obtain ⟨u, l⟩ := e
    simp [typesOf] at h
    rw [mergeTopNInto, if_neg (fun he => h.1 he.symm), ih (by simp [typesOf, h.2])]
    rfl

theorem foldl_mergeTopNInto_append (l : List (String × List KeyMeta)) :
    ∀ m : List (String × List KeyMeta), (typesOf l).Nodup →
      (∀ p ∈ typesOf l, p ∉ typesOf m) →
      l.foldl (fun m e => mergeTopNInto m e.1 e.2) m = m ++ l := by
  induction l with
  | nil => intro m _ _; simp
  | cons q t ih =>
    intro m hnd hdis
    obtain ⟨qt, qks⟩ := q
    simp only [typesOf, List.map_cons, List.nodup_cons] at hnd
    rw [List.foldl_cons]
    simp only
    rw [mergeTopNInto_of_not_mem m qt qks (hdis qt (by simp [typesOf]))]
    rw [ih (m ++ [(qt, qks)]) hnd.2 ?_]
    · simp
    · intro p hp
      simp only [typesOf, List.map_append] at *
      intro hmem
      rcases List.mem_append.1 hmem with hmem | hmem
      · exact hdis p (by simp [hp]) hmem
      · simp at hmem
        rw [hmem] at hp
        exact hnd.1 hp

theorem applyKeyToMap_names (m : List PrefixAgg) (p : String) (k : KeyMeta)
    (c : ScanConfig) :
    namesOf (applyKeyToMap m p k c) =
      if p ∈ namesOf m then namesOf m else namesOf m ++ [p] := by
  induction m with
  | nil =>
    simp [applyKeyToMap, namesOf, updatePrefixAgg_pfx, createEmptyPrefixAgg]
  | cons a t ih =>
    by_cases he : a.pfx = p
    · simp [applyKeyToMap, he, namesOf, updatePrefixAgg_pfx]
    · simp only [applyKeyToMap, if_neg he, namesOf, List.map_cons] at ih ⊢
      rw [ih]
      by_cases hm' : p ∈ List.map (fun a => a.pfx) t
      · simp [hm', Ne.symm he]
      · simp [hm', Ne.symm he]

theorem applyKeyToMap_names_nodup (m : List PrefixAgg) (p : String) (k : KeyMeta)
    (c : ScanConfig) (h : (namesOf m).Nodup) :
    (namesOf (applyKeyToMap m p k c)).Nodup := by
  rw [applyKeyToMap_names]
  by_cases hm : p ∈ namesOf m
  · simpa [hm] using h
  · simp [hm, List.nodup_append, h]

theorem foldPrefixes_names_nodup (ps : List String) (k : KeyMeta) (c : ScanConfig) :
    ∀ m : List PrefixAgg, (namesOf m).Nodup →
      (namesOf (ps.foldl (fun m p => applyKeyToMap m p k c) m)).Nodup := by
  induction ps with
  | nil => intro m hm; simpa using hm
  | cons p ps ih =>
    intro m hm
    exact ih _ (applyKeyToMap_names_nodup m p k c hm)

theorem topNStep_types (tm : List (String × List KeyMeta)) (k : KeyMeta) (n : Nat) :
    typesOf (topNStep tm k n) =
      if k.type ∈ typesOf tm then typesOf tm else typesOf tm ++ [k.type] := by
  induction tm with
  | nil => simp [topNStep, typesOf]
  | cons e rest ih =>
    obtain ⟨t, l⟩ := e
    by_cases he : t = k.type
    · simp [topNStep, he, typesOf]
    · simp only [topNStep, if_neg he, typesOf, List.map_cons] at ih ⊢
      rw [ih]
      by_cases hm' : k.type ∈ List.map (fun e => e.1) rest
      · simp [hm', Ne.symm he]
      · simp [hm', Ne.symm he]

theorem topNStep_types_nodup (tm : List (String × List KeyMeta)) (k : KeyMeta) (n : Nat)
    (h : (typesOf tm).Nodup) : (typesOf (topNStep tm k n)).Nodup := by
  rw [topNStep_types]
  by_cases hm : k.type ∈ typesOf tm
  · simpa [hm] using h
  · simp [hm, List.nodup_append, h]

theorem aggFold_nodups (keys : List KeyMeta) (c : ScanConfig) (d : String) :
    ∀ st : List PrefixAgg × List (String × List KeyMeta),
      (namesOf st.1).Nodup → (typesOf st.2).Nodup →
      (namesOf (keys.foldl (aggStep c d) st).1).Nodup ∧
        (typesOf (keys.foldl (aggStep c d) st).2).Nodup := by
  induction keys with
  | nil => intro st h1 h2; exact ⟨h1, h2⟩
  | cons k keys ih =>
    intro st h1 h2
    exact ih _ (foldPrefixes_names_nodup (extractPrefixes k.key d 3) k c st.1 h1)
      (topNStep_types_nodup st.2 k c.sizeTopN h2)

theorem aggregateKeys_names_nodup (keys : List KeyMeta) (c : ScanConfig) (d : String) :
    (namesOf (aggregateKeys keys c d).prefixes).Nodup := by
  rw [aggregateKeys]
  have hperm : (namesOf (sortAggs (keys.foldl (aggStep c d) ([], [])).1)).Perm
      (namesOf (keys.foldl (aggStep c d) ([], [])).1) := by
    simp only [namesOf]
    exact (sortAggs_perm _).map (fun a => a.pfx)
  exact hperm.nodup_iff.2 (aggFold_nodups keys c d ([], []) (by simp [namesOf]) (by simp [typesOf])).1

theorem aggregateKeys_types_nodup (keys : List KeyMeta) (c : ScanConfig) (d : String) :
    (typesOf (aggregateKeys keys c d).topN).Nodup := by
  rw [aggregateKeys]
  exact (aggFold_nodups keys c d ([], []) (by simp [namesOf]) (by simp [typesOf])).2

theorem aggregateKeys_prefixes_pairwise (keys : List KeyMeta) (c : ScanConfig)
    (d : String) : ((aggregateKeys keys c d).prefixes).Pairwise descEst := by
  rw [aggregateKeys]
  exact sortAggs_pairwise _

/-- Claim C3: merging a single per-shard partial aggregation result (any
output of `aggregateKeys`) is the identity — `mergeAggregations [x] = x`
including the order of the `prefixes` list (the stable re-sort of an
already-sorted list) and the verbatim-copied contents of every top-N
list. -/
theorem claim3_merge_single_identity (keys : List KeyMeta) (config : ScanConfig)
    (delimiter : String) :
    mergeAggregations [aggregateKeys keys config delimiter] =
      aggregateKeys keys config delimiter := by
  have hpm : (aggregateKeys keys config delimiter).prefixes.foldl mergePfxInto [] =
      (aggregateKeys keys config delimiter).prefixes := by
    have := foldl_mergePfxInto_append (aggregateKeys keys config delimiter).prefixes []
      (aggregateKeys_names_nodup keys config delimiter) (by simp [namesOf])
    simpa using this
  have htm : (aggregateKeys keys config delimiter).topN.foldl
      (fun m e => mergeTopNInto m e.1 e.2) [] =
      (aggregateKeys keys config delimiter).topN := by
    have := foldl_mergeTopNInto_append (aggregateKeys keys config delimiter).topN []
      (aggregateKeys_types_nodup keys config delimiter) (by simp [typesOf])
    simpa using this
  rw [mergeAggregations]
  simp only [List.foldl_cons, List.foldl_nil]
  rw [hpm, htm,
    sortAggs_eq_self _ (aggregateKeys_prefixes_pairwise keys config delimiter)]

/-! Claim C4: per-prefix totals of `mergeAggregations`. -/

/-- Total of a numeric observation `f` over all entries of a prefix map with
a given name (duplicate-tolerant, so it is well-defined on arbitrary
`AggregationResult` values). -/
def pfxMeasure (f : PrefixAgg → Nat) (l : List PrefixAgg) (p : String) : Nat :=
  ((l.filter (fun a => a.pfx == p)).map f).sum

theorem pfxMeasure_nil (f : PrefixAgg → Nat) (p : String) : pfxMeasure f [] p = 0 := rfl

theorem pfxMeasure_cons (f : PrefixAgg → Nat) (a : PrefixAgg) (l : List PrefixAgg)
    (p : String) :
    pfxMeasure f (a :: l) p = (if a.pfx = p then f a else 0) + pfxMeasure f l p := by
  by_cases h : a.pfx = p <;> simp [pfxMeasure, h]

theorem pfxMeasure_append (f : PrefixAgg → Nat) (l₁ l₂ : List PrefixAgg) (p : String) :
    pfxMeasure f (l₁ ++ l₂) p = pfxMeasure f l₁ p + pfxMeasure f l₂ p := by
  simp [pfxMeasure, List.filter_append]

theorem combinePfx_pfx (e q : PrefixAgg) : (combinePfx e q).pfx = e.pfx := rfl

theorem mergePfxInto_measure (f : PrefixAgg → Nat)
    (hf : ∀ e q : PrefixAgg, f (combinePfx e q) = f e + f q)
    (m : List PrefixAgg) (q : PrefixAgg) (p : String) :
    pfxMeasure f (mergePfxInto m q) p =
      pfxMeasure f m p + (if q.pfx = p then f q else 0) := by
  induction m with
  | nil => simp [mergePfxInto, pfxMeasure_cons, pfxMeasure_nil]
  | cons e rest ih =>
    by_cases he : e.pfx = q.pfx
    · rw [mergePfxInto, if_pos he, pfxMeasure_cons, pfxMeasure_cons, combinePfx_pfx, hf]
      by_cases hp : e.pfx = p
      · have hq : q.pfx = p := he.symm.trans hp
        simp only [if_pos hp, if_pos hq]
        omega
      · have hq : ¬q.pfx = p := fun h => hp (he.trans h)
        simp only [if_neg hp, if_neg hq]
        omega
    · rw [mergePfxInto, if_neg he, pfxMeasure_cons, pfxMeasure_cons, ih]
      omega

theorem foldl_mergePfxInto_measure (f : PrefixAgg → Nat)
    (hf : ∀ e q : PrefixAgg, f (combinePfx e q) = f e + f q) (l : List PrefixAgg) :
    ∀ (m : List PrefixAgg) (p : String),
      pfxMeasure f (l.foldl mergePfxInto m) p = pfxMeasure f m p + pfxMeasure f l p := by
  induction l with
  | nil => intro m p; simp [pfxMeasure_nil]
  | cons q rest ih =>
    intro m p
    rw [List.foldl_cons, ih, mergePfxInto_measure f hf, pfxMeasure_cons]
    omega

theorem sortAggs_measure (f : PrefixAgg → Nat) (l : List PrefixAgg) (p : String) :
    pfxMeasure f (sortAggs l) p = pfxMeasure f l p := by
  exact List.Perm.sum_eq (((sortAggs_perm l).filter _).map f)

theorem mergeAggregations_measure (f : PrefixAgg → Nat)
    (hf : ∀ e q : PrefixAgg, f (combinePfx e q) = f e + f q)
    (rs : List AggregationResult) (p : String) :
    pfxMeasure f (mergeAggregations rs).prefixes p =
      (rs.map (fun r => pfxMeasure f r.prefixes p)).sum := by
  have hfold : ∀ m : List PrefixAgg,
      pfxMeasure f (rs.foldl (fun m r => r.prefixes.foldl mergePfxInto m) m) p =
        pfxMeasure f m p + (rs.map (fun r => pfxMeasure f r.prefixes p)).sum := by
    induction rs with
    | nil => intro m; simp
    | cons r rest ih =>
      intro m
      rw [List.foldl_cons, ih, foldl_mergePfxInto_measure f hf]
      simp
      omega
  rw [mergeAggregations]
  simp only [sortAggs_measure]
  simpa [pfxMeasure_nil] using hfold []

theorem histVal_bumpFold (entries : List (String × Nat)) :
    ∀ (h0 : List (String × Nat)) (lab : String),
      histVal (entries.foldl (fun h lc => bumpBy h lc.1 lc.2) h0) lab =
        histVal h0 lab + histVal entries lab := by
  induction entries with
  | nil => intro h0 lab; simp [histVal]
  | cons lc rest ih =>
    intro h0 lab
    obtain ⟨l, n⟩ := lc
    rw [List.foldl_cons]
    simp only
    rw [ih, bumpBy_histVal, histVal_cons]
    omega

theorem merge_count_total (rs : List AggregationResult) (p : String) :
    pfxMeasure (fun a => a.count) (mergeAggregations rs).prefixes p =
      (rs.map (fun r => pfxMeasure (fun a => a.count) r.prefixes p)).sum :=
  mergeAggregations_measure _ (fun _ _ => rfl) rs p

theorem merge_est_total (rs : List AggregationResult) (p : String) :
    pfxMeasure (fun a => a.estBytes) (mergeAggregations rs).prefixes p =
      (rs.map (fun r => pfxMeasure (fun a => a.estBytes) r.prefixes p)).sum :=
  mergeAggregations_measure _ (fun _ _ => rfl) rs p

theorem merge_ttl_total (lab : String) (rs : List AggregationResult) (p : String) :
    pfxMeasure (fun a => histVal a.ttlHist lab) (mergeAggregations rs).prefixes p =
      (rs.map (fun r => pfxMeasure (fun a => histVal a.ttlHist lab) r.prefixes p)).sum :=
  mergeAggregations_measure _ (fun e q => histVal_bumpFold q.ttlHist e.ttlHist lab) rs p

/-- Shard inputs for the claim C4 counterexample. -/
def claim4Cfg : ScanConfig := ⟨[0], 100, 100, [0, 60], [0, 60], 5⟩

/-- Shard A of the claim C4 counterexample: keys `p` (5 bytes) and `q`
(10 bytes). -/
def claim4A : AggregationResult :=
  aggregateKeys [⟨"p", "string", none, none, some 5, none⟩,
    ⟨"q", "string", none, none, some 10, none⟩] claim4Cfg ":"

/-- Shard B of the claim C4 counterexample: key `p` (10 bytes). -/
def claim4B : AggregationResult :=
  aggregateKeys [⟨"p", "string", none, none, some 10, none⟩] claim4Cfg ":"

/-- Shard C of the claim C4 counterexample: key `q` (5 bytes). -/
def claim4C : AggregationResult :=
  aggregateKeys [⟨"q", "string", none, none, some 5, none⟩] claim4Cfg ":"

/-- Counterexample to claim C4: `mergeAggregations` is not associative as a
function into `AggregationResult` — on the three concrete per-shard results
above, both prefixes end with total 15 bytes, and the stable re-sort breaks
the tie by map insertion order, which differs between the two
associations (prefix order `[p, q]` versus `[q, p]`). -/
theorem claim4_counterexample :
    mergeAggregations [mergeAggregations [claim4A, claim4B], claim4C] ≠
      mergeAggregations [claim4A, mergeAggregations [claim4B, claim4C]] := by
  decide

/-- Claim C4 as amended: merging is associative and commutative at the level
of per-prefix aggregate totals — for every prefix name, the merged `count`,
`estBytes` and every TTL-histogram bucket are the sums over the inputs, so
any re-association or transposition of the inputs yields the same totals —
but not at the level of the `AggregationResult` value itself (list order and
top-N contents remain input-order dependent, see the counterexample). -/
theorem claim4_amended_merge_totals (a b c : AggregationResult) (p lab : String) :
    (pfxMeasure (fun x => x.count) (mergeAggregations [mergeAggregations [a, b], c]).prefixes p =
      pfxMeasure (fun x => x.count) (mergeAggregations [a, mergeAggregations [b, c]]).prefixes p) ∧
    (pfxMeasure (fun x => x.estBytes) (mergeAggregations [mergeAggregations [a, b], c]).prefixes p =
      pfxMeasure (fun x => x.estBytes) (mergeAggregations [a, mergeAggregations [b, c]]).prefixes p) ∧
    (pfxMeasure (fun x => histVal x.ttlHist lab) (mergeAggregations [mergeAggregations [a, b], c]).prefixes p =
      pfxMeasure (fun x => histVal x.ttlHist lab) (mergeAggregations [a, mergeAggregations [b, c]]).prefixes p) ∧
    (pfxMeasure (fun x => x.count) (mergeAggregations [a, b]).prefixes p =
      pfxMeasure (fun x => x.count) (mergeAggregations [b, a]).prefixes p) ∧
    (pfxMeasure (fun x => x.estBytes) (mergeAggregations [a, b]).prefixes p =
      pfxMeasure (fun x => x.estBytes) (mergeAggregations [b, a]).prefixes p) ∧
    (pfxMeasure (fun x => histVal x.ttlHist lab) (mergeAggregations [a, b]).prefixes p =
      pfxMeasure (fun x => histVal x.ttlHist lab) (mergeAggregations [b, a]).prefixes p) := by
  refine ⟨?_, ?_, ?_, ?_, ?_, ?_⟩ <;>
    simp [merge_count_total, merge_est_total, merge_ttl_total] <;> omega

/-! Claim C5: top-N list bounds. -/

theorem spliceIn_mem (l : List KeyMeta) (i : Nat) (k x : KeyMeta) :
    x ∈ spliceIn l i k ↔ x = k ∨ x ∈ l := by
  induction l generalizing i with
  | nil =>
    cases i with
    | zero => simp [spliceIn]
    | succ j => simp [spliceIn]
  | cons a t ih =>
    cases i with
    | zero => simp [spliceIn]
    | succ j =>
      simp only [spliceIn, List.mem_cons, ih]
      tauto

theorem insertTopN_mem (l : List KeyMeta) (k : KeyMeta) (n : Nat) (x : KeyMeta)
    (h : x ∈ insertTopN l k n) : x = k ∨ x ∈ l := by
  rw [insertTopN] at h
  by_cases hidx : findInsertIdx l (estD k) < n
  · rw [if_pos hidx] at h
    exact (spliceIn_mem l _ k x).1 (List.take_subset _ _ h)
  · rw [if_neg hidx] at h
    exact Or.inr h

theorem insertTopN_length_le (l : List KeyMeta) (k : KeyMeta) (n : Nat)
    (h : l.length ≤ n) : (insertTopN l k n).length ≤ n := by
  rw [insertTopN]
  by_cases hidx : findInsertIdx l (estD k) < n
  · rw [if_pos hidx]
    simp [List.length_take]
  · rw [if_neg hidx]
    exact h

theorem insertTopN_length_max (l : List KeyMeta) (k : KeyMeta) (n : Nat) :
    (insertTopN l k n).length ≤ max l.length n := by
  rw [insertTopN]
  by_cases hidx : findInsertIdx l (estD k) < n
  · rw [if_pos hidx]
    simp [List.length_take]
  · rw [if_neg hidx]
    exact le_max_left _ _

/-- The amended invariant of claim C5 for one top-N map: every per-type list
has at most `n` entries and contains only keys with a truthy size
estimate. -/
def topNBound (n : Nat) (tm : List (String × List KeyMeta)) : Prop :=
  ∀ e ∈ tm, e.2.length ≤ n ∧ ∀ k ∈ e.2, truthyEst k

theorem topNStep_bound (tm : List (String × List KeyMeta)) (k : KeyMeta) (n : Nat)
    (h : topNBound n tm) : topNBound n (topNStep tm k n) := by
  induction tm with
  | nil =>
    intro e he
    simp [topNStep] at he
    subst he
    by_cases ht : truthyEst k
    · simp only [ht, if_pos]
      refine ⟨insertTopN_length_le [] k n (Nat.zero_le n), ?_⟩
      intro x hx
      rcases insertTopN_mem [] k n x hx with hx | hx
      · exact hx ▸ ht
      · simp at hx
    · simp [ht]
  | cons e0 rest ih =>
    obtain ⟨t, l⟩ := e0
    by_cases he0 : t = k.type
    · intro e he
      rw [topNStep, if_pos he0] at he
      rcases List.mem_cons.1 he with he | he
      · subst he
        obtain ⟨hlen, htr⟩ := h (t, l) (by simp)
        by_cases ht : truthyEst k
        · simp only [ht, if_pos]
          refine ⟨insertTopN_length_le l k n hlen, ?_⟩
          intro x hx
          rcases insertTopN_mem l k n x hx with hx | hx
          · exact hx ▸ ht
          · exact htr x hx
        · simpa [ht] using ⟨hlen, htr⟩
      · exact h e (by simp [he])
    · intro e he
      rw [topNStep, if_neg he0] at he
      rcases List.mem_cons.1 he with he | he
      · exact he ▸ h (t, l) (by simp)
      · exact ih (fun e' he' => h e' (by simp [he'])) e he

theorem aggFold_topNBound (keys : List KeyMeta) (c : ScanConfig) (d : String) :
    ∀ st : List PrefixAgg × List (String × List KeyMeta),
      topNBound c.sizeTopN st.2 →
      topNBound c.sizeTopN (keys.foldl (aggStep c d) st).2 := by
  induction keys with
  | nil => intro st h; exact h
  | cons k keys ih =>
    intro st h
    exact ih _ (topNStep_bound st.2 k c.sizeTopN h)

theorem aggregateKeys_topNBound (keys : List KeyMeta) (c : ScanConfig) (d : String) :
    topNBound c.sizeTopN (aggregateKeys keys c d).topN := by
  rw [aggregateKeys]
  exact aggFold_topNBound keys c d ([], []) (by intro e he; simp at he)

theorem insertTopN_fold_bound (ks : List KeyMeta) (hks : ∀ k ∈ ks, truthyEst k)
    (B : Nat) :
    ∀ l : List KeyMeta, l.length ≤ max B 20 → (∀ x ∈ l, truthyEst x) →
      (ks.foldl (fun acc k => insertTopN acc k 20) l).length ≤ max B 20 ∧
        ∀ x ∈ ks.foldl (fun acc k => insertTopN acc k 20) l, truthyEst x := by
  induction ks with
  | nil => intro l h1 h2; exact ⟨h1, h2⟩
  | cons k ks ih =>
    intro l h1 h2
    rw [List.foldl_cons]
    refine ih (fun x hx => hks x (by simp [hx])) (insertTopN l k 20) ?_ ?_
    · calc (insertTopN l k 20).length ≤ max l.length 20 := insertTopN_length_max l k 20
        _ ≤ max B 20 := by omega
    · intro x hx
      rcases insertTopN_mem l k 20 x hx with hx | hx
      · exact hx ▸ hks k (by simp)
      · exact h2 x hx

theorem mergeTopNInto_bound (tm : List (String × List KeyMeta)) (t : String)
    (ks : List KeyMeta) (B : Nat) (htm : topNBound (max B 20) tm)
    (hlen : ks.length ≤ B) (htr : ∀ k ∈ ks, truthyEst k) :
    topNBound (max B 20) (mergeTopNInto tm t ks) := by
  induction tm with
  | nil =>
    intro e he
    simp [mergeTopNInto] at he
    subst he
    exact ⟨le_trans hlen (le_max_left B 20), htr⟩
  | cons e0 rest ih =>
    obtain ⟨u, l⟩ := e0
    by_cases hu : u = t
    · intro e he
      rw [mergeTopNInto, if_pos hu] at he
      rcases List.mem_cons.1 he with he | he
      · subst he
        obtain ⟨hlen0, htr0⟩ := htm (u, l) (by simp)
        exact insertTopN_fold_bound ks htr B l hlen0 htr0
      · exact htm e (by simp [he])
    · intro e he
      rw [mergeTopNInto, if_neg hu] at he
      rcases List.mem_cons.1 he with he | he
      · exact he ▸ htm (u, l) (by simp)
      · exact ih (fun e' he' => htm e' (by simp [he'])) e he

theorem mergeAggregations_topNBound (rs : List AggregationResult) (B : Nat)
    (h : ∀ r ∈ rs, topNBound B r.topN) :
    topNBound (max B 20) (mergeAggregations rs).topN := by
  have hentries : ∀ r : AggregationResult, topNBound B r.topN →
      ∀ (tm : List (String × List KeyMeta)), topNBound (max B 20) tm →
      topNBound (max B 20) (r.topN.foldl (fun m e => mergeTopNInto m e.1 e.2) tm) := by
    intro r hr
    have : ∀ sub : List (String × List KeyMeta),
        (∀ e ∈ sub, e.2.length ≤ B ∧ ∀ k ∈ e.2, truthyEst k) →
        ∀ tm, topNBound (max B 20) tm →
        topNBound (max B 20) (sub.foldl (fun m e => mergeTopNInto m e.1 e.2) tm) := by
      intro sub
      induction sub with
      | nil => intro _ tm htm; exact htm
      | cons e0 rest ih =>
        intro hsub tm htm
        rw [List.foldl_cons]
        obtain ⟨hlen, htr⟩ := hsub e0 (by simp)
        exact ih (fun e' he' => hsub e' (by simp [he'])) _
          (mergeTopNInto_bound tm e0.1 e0.2 B htm hlen htr)
    exact this r.topN hr
  rw [mergeAggregations]
  have hfold : ∀ (sub : List AggregationResult), (∀ r ∈ sub, topNBound B r.topN) →
      ∀ tm, topNBound (max B 20) tm →
      topNBound (max B 20)
        (sub.foldl (fun m r => r.topN.foldl (fun m e => mergeTopNInto m e.1 e.2) m) tm) := by
    intro sub
    induction sub with
    | nil => intro _ tm htm; exact htm
    | cons r rest ih =>
      intro hsub tm htm
      rw [List.foldl_cons]
      exact ih (fun r' hr' => hsub r' (by simp [hr'])) _
        (hentries r (hsub r (by simp)) tm htm)
  exact hfold rs h [] (by intro e he; simp at he)

/-- Lookup of a top-N list by type name. -/
def findTopN (tm : List (String × List KeyMeta)) (t : String) : Option (List KeyMeta) :=
  (tm.find? (fun e => e.1 == t)).map (fun e => e.2)

/-- Config with `sizeTopN = 1` for the claim C5 counterexample. -/
def claim5Cfg : ScanConfig := ⟨[0], 100, 100, [0, 60], [0, 60], 1⟩

/-- First shard result of the claim C5 counterexample. -/
def claim5R1 : AggregationResult :=
  aggregateKeys [⟨"p", "string", none, none, some 5, none⟩] claim5Cfg ":"

/-- Second shard result of the claim C5 counterexample. -/
def claim5R2 : AggregationResult :=
  aggregateKeys [⟨"q", "string", none, none, some 10, none⟩] claim5Cfg ":"

/-- Counterexample to claim C5: with `sizeTopN = 1`, merging two per-shard
results (each with a single-entry "string" top-N list) yields a "string"
top-N list of length 2 — `mergeAggregations` bounds its insertions by the
hard-coded constant 20, not by the configured `sizeTopN`. -/
theorem claim5_counterexample :
    ¬ ((findTopN (mergeAggregations [claim5R1, claim5R2]).topN "string").getD []).length ≤
      claim5Cfg.sizeTopN := by
  decide

/-- Claim C5 as amended: `aggregateKeys` keeps every per-type top-N list at
length ≤ `sizeTopN` and only keys with a truthy (known, non-zero) estimate
ever enter a list, so an unknown-estimate key can never evict a known entry;
`mergeAggregations`, however, bounds lists only by `max B 20` (the hard-coded
merge cap) when every input list is bounded by `B`, not by `sizeTopN`. -/
theorem claim5_amended_topn_bounds (keys : List KeyMeta) (config : ScanConfig)
    (delimiter : String) (rs : List AggregationResult) (B : Nat)
    (hrs : ∀ r ∈ rs, topNBound B r.topN) :
    topNBound config.sizeTopN (aggregateKeys keys config delimiter).topN ∧
      topNBound (max B 20) (mergeAggregations rs).topN :=
  ⟨aggregateKeys_topNBound keys config delimiter, mergeAggregations_topNBound rs B hrs⟩

/-- Witness for the amended claim C5 at a concrete input. -/
theorem claim5_amended_topn_bounds_witness :
    topNBound claim5Cfg.sizeTopN
        (aggregateKeys [⟨"p", "string", none, none, some 5, none⟩] claim5Cfg ":").topN ∧
      topNBound (max 1 20) (mergeAggregations [claim5R1]).topN :=
  claim5_amended_topn_bounds [⟨"p", "string", none, none, some 5, none⟩] claim5Cfg ":"
    [claim5R1] 1 (by simp only [topNBound]; decide)

/-! Claims C1 and C9: scan-loop accounting. -/

theorem shardScan_spec (limit : Nat) (bs : List (List KeyMeta)) :
    ∀ acc : List KeyMeta, ∃ t rest : List KeyMeta,
      shardScan limit acc bs = acc ++ t ∧ t ++ rest = bs.flatten ∧
        (rest = [] ∨ limit ≤ (acc ++ t).length) := by
  induction bs with
  | nil =>
    intro acc
    exact ⟨[], [], by simp [shardScan], by simp, Or.inl rfl⟩
  | cons b bs ih =>
    intro acc
    by_cases hl : limit ≤ (acc ++ b).length
    · refine ⟨b, bs.flatten, ?_, by simp, Or.inr hl⟩
      rw [shardScan, if_pos hl]
    · obtain ⟨t', rest', h1, h2, h3⟩ := ih (acc ++ b)
      refine ⟨b ++ t', rest', ?_, ?_, ?_⟩
      · rw [shardScan, if_neg hl, h1, List.append_assoc]
      · rw [List.append_assoc, h2, List.flatten_cons]
      · rcases h3 with h3 | h3
        · exact Or.inl h3
        · exact Or.inr (by simpa [List.append_assoc] using h3)

theorem standaloneVisit_stops (limit : Nat) (dbs : List (List (List KeyMeta)))
    (acc : List KeyMeta) (h : limit ≤ acc.length) :
    standaloneVisit limit dbs acc = acc := by
  cases dbs with
  | nil => rfl
  | cons db rest => rw [standaloneVisit, if_pos h]

theorem standaloneVisit_spec (limit : Nat) (dbs : List (List (List KeyMeta))) :
    ∀ acc : List KeyMeta, ∃ t rest : List KeyMeta,
      standaloneVisit limit dbs acc = acc ++ t ∧
        t ++ rest = (dbs.map List.flatten).flatten := by
  induction dbs with
  | nil =>
    intro acc
    exact ⟨[], [], by simp [standaloneVisit], by simp⟩
  | cons db dbs ih =>
    intro acc
    by_cases hl : limit ≤ acc.length
    · refine ⟨[], (db :: dbs).map List.flatten |>.flatten, ?_, by simp⟩
      rw [standaloneVisit, if_pos hl, List.append_nil]
    · obtain ⟨t1, rest1, h1, h2, h3⟩ := shardScan_spec limit db acc
      rcases h3 with h3 | h3
      · obtain ⟨t2, rest2, h4, h5⟩ := ih (shardScan limit acc db)
        refine ⟨t1 ++ t2, rest2, ?_, ?_⟩
        · rw [standaloneVisit, if_neg hl, h4, h1, List.append_assoc]
        · rw [List.append_assoc, h5, List.map_cons, List.flatten_cons, ← h2, h3,
            List.append_nil]
      · refine ⟨t1, rest1 ++ (dbs.map List.flatten).flatten, ?_, ?_⟩
        · rw [standaloneVisit, if_neg hl, h1, standaloneVisit_stops limit dbs _ (h1 ▸ h3)]
        · rw [← List.append_assoc, h2, List.map_cons, List.flatten_cons]

/-- Claim C1: for both scan variants, `sampled` is at most `sampleLimit` and
equals `min(total keys visited, sampleLimit)`; the returned key list is the
list of visited keys truncated post-hoc to the limit (so its length equals
`sampled`); the visited keys themselves are a prefix of the concatenation of
the per-shard batch sequence (standalone), respectively the concatenation of
per-node prefixes of each node's batch sequence (cluster) — no further
iteration happens once the limit is reached. -/
theorem claim1_sample_limit (config : ScanConfig) (approx : Nat)
    (dbs nodes : List (List (List KeyMeta))) :
    ((scanStandalone config approx dbs).sampled ≤ config.sampleLimit ∧
      (scanStandalone config approx dbs).sampled =
        min (standaloneVisit config.sampleLimit dbs []).length config.sampleLimit ∧
      (scanStandalone config approx dbs).keys =
        (standaloneVisit config.sampleLimit dbs []).take config.sampleLimit ∧
      (scanStandalone config approx dbs).keys.length =
        (scanStandalone config approx dbs).sampled ∧
      ∃ rest, standaloneVisit config.sampleLimit dbs [] ++ rest =
        (dbs.map List.flatten).flatten) ∧
    ((scanCluster config approx nodes).sampled ≤ config.sampleLimit ∧
      (scanCluster config approx nodes).sampled =
        min ((nodes.map (fun b => shardScan config.sampleLimit [] b)).flatten).length
          config.sampleLimit ∧
      (scanCluster config approx nodes).keys =
        ((nodes.map (fun b => shardScan config.sampleLimit [] b)).flatten).take
          config.sampleLimit ∧
      (scanCluster config approx nodes).keys.length =
        (scanCluster config approx nodes).sampled ∧
      ∀ batches ∈ nodes, ∃ rest,
        shardScan config.sampleLimit [] batches ++ rest = batches.flatten) := by
  refine ⟨⟨Nat.min_le_right _ _, rfl, rfl, ?_, ?_⟩,
    ⟨Nat.min_le_right _ _, rfl, rfl, ?_, ?_⟩⟩
  · simp [scanStandalone, List.length_take, Nat.min_comm]
  · obtain ⟨t, rest, h1, h2⟩ := standaloneVisit_spec config.sampleLimit dbs []
    exact ⟨rest, by rw [h1]; simpa using h2⟩
  · simp [scanCluster, List.length_take, Nat.min_comm]
  · intro batches hb
    obtain ⟨t, rest, h1, h2, _⟩ := shardScan_spec config.sampleLimit batches []
    exact ⟨rest, by rw [h1]; simpa using h2⟩

/-- Witness for claim C1 at a concrete input (two keys in one batch, limit
1: one shard visit stops, returned list is truncated to a single key). -/
theorem claim1_sample_limit_witness :
    ((scanStandalone ⟨[0], 1, 100, [0], [0], 5⟩ 4 [[[claim6Key1, claim6Key2]]]).sampled ≤ 1 ∧
      (scanStandalone ⟨[0], 1, 100, [0], [0], 5⟩ 4 [[[claim6Key1, claim6Key2]]]).sampled =
        min (standaloneVisit 1 [[[claim6Key1, claim6Key2]]] []).length 1 ∧
      (scanStandalone ⟨[0], 1, 100, [0], [0], 5⟩ 4 [[[claim6Key1, claim6Key2]]]).keys =
        (standaloneVisit 1 [[[claim6Key1, claim6Key2]]] []).take 1 ∧
      (scanStandalone ⟨[0], 1, 100, [0], [0], 5⟩ 4 [[[claim6Key1, claim6Key2]]]).keys.length =
        (scanStandalone ⟨[0], 1, 100, [0], [0], 5⟩ 4 [[[claim6Key1, claim6Key2]]]).sampled ∧
      ∃ rest, standaloneVisit 1 [[[claim6Key1, claim6Key2]]] [] ++ rest =
        ([[[claim6Key1, claim6Key2]]].map List.flatten).flatten) ∧
    ((scanCluster ⟨[0], 1, 100, [0], [0], 5⟩ 4 [[[claim6Key1]]]).sampled ≤ 1 ∧
      (scanCluster ⟨[0], 1, 100, [0], [0], 5⟩ 4 [[[claim6Key1]]]).sampled =
        min (([[[claim6Key1]]].map (fun b => shardScan 1 [] b)).flatten).length 1 ∧
      (scanCluster ⟨[0], 1, 100, [0], [0], 5⟩ 4 [[[claim6Key1]]]).keys =
        (([[[claim6Key1]]].map (fun b => shardScan 1 [] b)).flatten).take 1 ∧
      (scanCluster ⟨[0], 1, 100, [0], [0], 5⟩ 4 [[[claim6Key1]]]).keys.length =
        (scanCluster ⟨[0], 1, 100, [0], [0], 5⟩ 4 [[[claim6Key1]]]).sampled ∧
      ∀ batches ∈ [[[claim6Key1]]], ∃ rest,
        shardScan 1 [] batches ++ rest = batches.flatten) :=
  claim1_sample_limit ⟨[0], 1, 100, [0], [0], 5⟩ 4 [[[claim6Key1, claim6Key2]]] [[[claim6Key1]]]

/-- Config for the claim C9 counterexample. -/
def claim9Cfg : ScanConfig := ⟨[0], 5, 100, [0], [0], 5⟩

/-- Counterexample to claim C9: with 2 sampled keys and a stale
`approxTotalKeys` of 1, coverage is 2, exceeding 1 — the code computes
`sampled / approxTotalKeys` with no upper clamp. -/
theorem claim9_counterexample :
    ¬ (scanStandalone claim9Cfg 1 [[[claim6Key1, claim6Key2]]]).coverage ≤ 1 := by
  have h : (scanStandalone claim9Cfg 1 [[[claim6Key1, claim6Key2]]]).coverage = 2 := by
    simp [scanStandalone, standaloneVisit, shardScan, claim9Cfg]
    norm_num
  rw [h]
  norm_num

/-- Claim C9 as amended: `coverage` equals `sampled / approxTotalKeys` when
the denominator is positive and 0 when it is 0 — with no clamping: it is at
most 1 whenever `sampled ≤ approxTotalKeys`, but can exceed 1 when
`approxTotalKeys` is stale and smaller than `sampled` (see the
counterexample). -/
theorem claim9_amended_coverage (config : ScanConfig) (approx : Nat)
    (dbs nodes : List (List (List KeyMeta))) :
    ((scanStandalone config approx dbs).coverage =
        if 0 < approx then ((scanStandalone config approx dbs).sampled : ℚ) / approx
        else 0) ∧
    ((scanStandalone config approx dbs).sampled ≤ approx →
      (scanStandalone config approx dbs).coverage ≤ 1) ∧
    ((scanCluster config approx nodes).coverage =
        if 0 < approx then ((scanCluster config approx nodes).sampled : ℚ) / approx
        else 0) ∧
    ((scanCluster config approx nodes).sampled ≤ approx →
      (scanCluster config approx nodes).coverage ≤ 1) := by
  have hdiv : ∀ s a : Nat, s ≤ a → (if 0 < a then (s : ℚ) / a else 0) ≤ 1 := by
    intro s a hsa
    by_cases ha : 0 < a
    · rw [if_pos ha]
      rw [div_le_one (by exact_mod_cast ha)]
      exact_mod_cast hsa
    · rw [if_neg ha]
      norm_num
  have hstd : (scanStandalone config approx dbs).coverage =
      if 0 < approx then ((scanStandalone config approx dbs).sampled : ℚ) / approx
      else 0 := by
    simp only [scanStandalone]
    norm_cast
  have hclu : (scanCluster config approx nodes).coverage =
      if 0 < approx then ((scanCluster config approx nodes).sampled : ℚ) / approx
      else 0 := by
    simp only [scanCluster]
    norm_cast
  refine ⟨hstd, fun h => ?_, hclu, fun h => ?_⟩
  · rw [hstd]
    exact hdiv _ approx h
  · rw [hclu]
    exact hdiv _ approx h

/-- Witness for the amended claim C9 at a concrete input. -/
theorem claim9_amended_coverage_witness :
    ((scanStandalone claim9Cfg 4 [[[claim6Key1, claim6Key2]]]).coverage =
        if 0 < 4 then ((scanStandalone claim9Cfg 4 [[[claim6Key1, claim6Key2]]]).sampled : ℚ) / 4
        else 0) ∧
    ((scanStandalone claim9Cfg 4 [[[claim6Key1, claim6Key2]]]).sampled ≤ 4 →
      (scanStandalone claim9Cfg 4 [[[claim6Key1, claim6Key2]]]).coverage ≤ 1) ∧
    ((scanCluster claim9Cfg 4 [[[claim6Key1]]]).coverage =
        if 0 < 4 then ((scanCluster claim9Cfg 4 [[[claim6Key1]]]).sampled : ℚ) / 4
        else 0) ∧
    ((scanCluster claim9Cfg 4 [[[claim6Key1]]]).sampled ≤ 4 →
      (scanCluster claim9Cfg 4 [[[claim6Key1]]]).coverage ≤ 1) :=
  claim9_amended_coverage claim9Cfg 4 [[[claim6Key1, claim6Key2]]] [[[claim6Key1]]]

/-! Claims C7 and C8: the size estimator's failure and overhead behavior. -/

/-- Environment in which every store command fails (the claim C7 failing
input: `MEMORY USAGE` throws and every heuristic lookup throws too). -/
def claim7EnvFail : SizeEnv :=
  ⟨.error "memory usage failed", .error "get failed", .error "hlen failed",
    .error "hscan failed", .error "llen failed", .error "lrange failed",
    .error "scard failed", .error "sscan failed", .error "zcard failed",
    .error "zrevrange failed", .error "xinfo failed"⟩

/-- Evidence for claim C7 being violated by the code (the claim itself
states the spec's intent): when size estimation fails at every step, the
estimator does not produce "no estimate" — every heuristic catch block
returns 0, to which the fixed overhead is then added, so the key receives
the substitute estimate 50.  That value is truthy, so aggregation includes
it in `estBytes` sums (here: a single-key aggregate gets `estBytes = 50`). -/
theorem claim7_estimation_failure_substitute :
    estimateKeySize claim7EnvFail "string" = baseOverhead ∧
      estimateKeySize claim7EnvFail "hash" = baseOverhead ∧
      estimateKeySize claim7EnvFail "list" = baseOverhead ∧
      estimateKeySize claim7EnvFail "set" = baseOverhead ∧
      estimateKeySize claim7EnvFail "zset" = baseOverhead ∧
      estimateKeySize claim7EnvFail "stream" = baseOverhead ∧
      (updatePrefixAgg (createEmptyPrefixAgg "k")
        ⟨"k", "string", none, none, some (estimateKeySize claim7EnvFail "string"), none⟩
        claim9Cfg).estBytes = baseOverhead := by
  refine ⟨rfl, rfl, rfl, rfl, rfl, rfl, ?_⟩
  decide

/-- Environment in which the native memory-introspection command returns the
positive value 7 (the claim C8 counterexample input). -/
def claim8EnvMem : SizeEnv := { claim7EnvFail with memUsage := .ok (some 7) }

/-- Counterexample to claim C8: when `MEMORY USAGE` returns the positive
value 7, `estimateKeySize` returns 7 directly — the fixed 50-byte overhead
is not added on the native path. -/
theorem claim8_counterexample :
    estimateKeySize claim8EnvMem "hash" = 7 ∧
      estimateKeySize claim8EnvMem "hash" ≠ 7 + baseOverhead := by
  decide

/-- Claim C8 as amended: the fixed per-key overhead is included in every
heuristic fallback estimate (every branch of `estimateKeySizeHeuristic`
adds `baseOverhead`, so its result is always at least `baseOverhead`), but a
positive native `MEMORY USAGE` reply is used directly, without adding the
overhead. -/
theorem claim8_amended_overhead (env : SizeEnv) (type : String) :
    (∀ v : Nat, env.memUsage = .ok (some v) → 0 < v →
      estimateKeySize env type = v) ∧
    baseOverhead ≤ estimateKeySizeHeuristic env type := by
  constructor
  · intro v hv hpos
    simp [estimateKeySize, hv, hpos]
  · rw [estimateKeySizeHeuristic]
    split_ifs <;> omega

/-- Witness for the amended claim C8 at a concrete input. -/
theorem claim8_amended_overhead_witness :
    estimateKeySize claim8EnvMem "zset" = 7 ∧
      baseOverhead ≤ estimateKeySizeHeuristic claim8EnvMem "zset" :=
  ⟨(claim8_amended_overhead claim8EnvMem "zset").1 7 rfl (by norm_num),
    (claim8_amended_overhead claim8EnvMem "zset").2⟩
